import Mathlib

/-!
Verification of the markovchains notebooks (absorbing-chain notebook and
ergodic.ipynb) against their specification.

The notebooks are shallowly embedded over exact rationals: the transition
matrix is a list of rows, the global numpy random generator is modelled as
an explicit stream of uniform draws in the half-open interval from 0 to 1
(one rational per call, consumed in order, which is exactly what seeding
provides), and the weighted sample of numpy.random.choice is the standard
inverse-CDF selection on one uniform draw.  numpy.random.choice validates
its probability vector on every call (non-negative entries, total within
sqrt(machine epsilon) of 1) and raises ValueError otherwise; this is the
only error the notebook code can raise, modelled by SimError.
-/

/-- The one error the notebook code can surface: the ValueError raised by
numpy.random.choice when its p argument is not a probability vector. -/
inductive SimError where
  | invalidDistribution
deriving DecidableEq, Repr

/-- Tolerance used by numpy.random.choice when checking that the weights
sum to 1: sqrt of the double-precision machine epsilon, i.e. 2 ^ (-26). -/
def atol : ℚ := 1 / 2 ^ 26

/-- Inverse-CDF weighted selection: the index numpy.random.choice returns
for weight vector p on a single uniform draw r.  Index i is selected iff r
falls inside the cumulative-weight interval of i, so a weight-0 index has
an empty interval. -/
def choice : List ℚ → ℚ → Nat
  | [], _ => 0
  | q :: qs, r => if r < q then 0 else choice qs (r - q) + 1

/-- The validation numpy.random.choice performs on its p argument:
every weight non-negative and the total within atol of 1. -/
def validDistB (p : List ℚ) : Bool :=
  p.all (fun x => decide (0 ≤ x)) && decide (|p.sum - 1| ≤ atol)

/-- One call of numpy.random.choice(range(n), p) on uniform draw r:
validate p, then select by inverse CDF. -/
def choiceE (p : List ℚ) (r : ℚ) : Except SimError Nat :=
  if validDistB p then .ok (choice p r) else .error .invalidDistribution

/-- The state vector of the notebooks: np.zeros(numstates) with entry i
set to 1. -/
def onehot (n i : Nat) : List ℚ := (List.replicate n (0 : ℚ)).set i 1

/-- Dot product of two rational vectors. -/
def dotL (xs ys : List ℚ) : ℚ := (List.zipWith (fun a b => a * b) xs ys).sum

/-- Column j of a row-major matrix (row j of the transpose). -/
def col (M : List (List ℚ)) (j : Nat) : List ℚ := M.map (fun rw => rw.getD j 0)

/-- Product of the transpose of M with a vector, as computed by
np.dot(M.T, statevec): entry j is the dot of column j of M with the
vector. -/
def matTvec (M : List (List ℚ)) (v : List ℚ) : List ℚ :=
  (List.range M.length).map (fun j => dotL (col M j) v)

/-- The per-step distribution the notebooks build: statevec is the one-hot
vector of the 1-based current state, statetransprobs = np.dot(M.T, statevec). -/
def statetransprobs (M : List (List ℚ)) (currstate : Nat) : List ℚ :=
  matTvec M (onehot M.length (currstate - 1))

/-- One step of the chain as coded in the notebooks:
currstate = np.random.choice(range(numstates), p=statetransprobs) + 1. -/
def stepE (M : List (List ℚ)) (currstate : Nat) (r : ℚ) : Except SimError Nat :=
  match choiceE (statetransprobs M currstate) r with
  | .ok i => .ok (i + 1)
  | .error e => .error e

/-- The absorbing barriers of the absorbing notebook, 1-based. -/
def absorbicStates : List Nat := [1, 4]

/-- One trial of the absorbing notebook: while currstate not in
absorbic_states, take a step, consuming draws rng k, rng (k+1), ... .
The loop in the code is unbounded; fuel bounds how many loop iterations we
unfold, and an ok none result means the loop is still running after fuel
iterations.  On normal exit the final state and the next unused draw index
are returned. -/
def runTrial (M : List (List ℚ)) (rng : Nat → ℚ) :
    Nat → Nat → Nat → Except SimError (Option (Nat × Nat))
  | s, k, 0 => if s ∈ absorbicStates then .ok (some (s, k)) else .ok none
  | s, k, fuel + 1 =>
    if s ∈ absorbicStates then .ok (some (s, k))
    else
      match stepE M s (rng k) with
      | .error e => .error e
      | .ok t => runTrial M rng t (k + 1) fuel

/-- The experiment loop of the absorbing notebook for one transient start
state: numexp independent trials from start, all consuming the one global
draw stream in order.  Returns the list of final states and the next
unused draw index; ok none if some trial is still running after fuel
iterations. -/
def runExperiment (M : List (List ℚ)) (rng : Nat → ℚ) (start : Nat) :
    Nat → Nat → Nat → Except SimError (Option (List Nat × Nat))
  | k, _, 0 => .ok (some ([], k))
  | k, fuel, numexp + 1 =>
    match runTrial M rng start k fuel with
    | .error e => .error e
    | .ok none => .ok none
    | .ok (some (f, k1)) =>
      match runExperiment M rng start k1 fuel numexp with
      | .error e => .error e
      | .ok none => .ok none
      | .ok (some (fs, k2)) => .ok (some (f :: fs, k2))

/-- Number of occurrences of v in xs, as tallied by
np.unique(..., return_counts=True). -/
def tallyCount (xs : List Nat) (v : Nat) : Nat :=
  (xs.filter (fun x => decide (x = v))).length

/-- The sorted distinct values present in xs, as returned by np.unique. -/
def uniqueSorted (xs : List Nat) : List Nat :=
  (List.range (xs.foldr max 0 + 1)).filter (fun v => decide (v ∈ xs))

/-- The tally-and-assign of cell 7 of the absorbing notebook:
unique, counts = np.unique(finalstates, return_counts=True);
simfprobs[row, :] = counts / numexp.  The assignment target is a 2-slot
row, so numpy broadcasts a length-1 counts array into both slots, copies a
length-2 array slotwise, and raises on any other length (modelled none). -/
def tallyRow (finals : List Nat) (numexp : Nat) : Option (ℚ × ℚ) :=
  match (uniqueSorted finals).map
      (fun v => ((tallyCount finals v : ℚ)) / (numexp : ℚ)) with
  | [x] => some (x, x)
  | [x, y] => some (x, y)
  | _ => none

/-- One trajectory of the ergodic notebook (cell 15): from state s take
numiter steps, recording the state after each step exactly as
statemat[exp, niter] = currstate does.  Returns the recorded states and
the next unused draw index. -/
def ergodicTrace (M : List (List ℚ)) (rng : Nat → ℚ) :
    Nat → Nat → Nat → Except SimError (List Nat × Nat)
  | _, k, 0 => .ok ([], k)
  | s, k, n + 1 =>
    match stepE M s (rng k) with
    | .error e => .error e
    | .ok t =>
      match ergodicTrace M rng t (k + 1) n with
      | .error e => .error e
      | .ok (tr, k1) => .ok (t :: tr, k1)

/-- The example matrix of the absorbing notebook. -/
def Mabs : List (List ℚ) :=
  [[1, 0, 0, 0], [0.1, 0.2, 0.3, 0.4], [0.5, 0.1, 0.1, 0.3], [0, 0, 0, 1]]

/-- An absorbing-style matrix whose two transient states 2 and 3 feed only
each other: no absorbing state is reachable from them. -/
def Mosc : List (List ℚ) :=
  [[1, 0, 0, 0], [0, 0, 1, 0], [0, 1, 0, 0], [0, 0, 0, 1]]

/-- An absorbing matrix in which absorbing state 4 is unreachable from the
transient states (its column weight from states 2 and 3 is zero). -/
def Munreach : List (List ℚ) :=
  [[1, 0, 0, 0], [0.5, 0.25, 0.25, 0], [0.5, 0.25, 0.25, 0], [0, 0, 0, 1]]

/-- A matrix whose third row has weights summing to 1.2: rows 1, 2 and 4
are valid, row 3 is malformed. -/
def Mbad : List (List ℚ) :=
  [[1, 0, 0, 0], [0, 0, 1, 0], [0.5, 0.2, 0.2, 0.3], [0, 0, 0, 1]]

/-- The period-2 matrix: states 1 and 2 alternate forever, so no
stationary behaviour of a single trajectory exists. -/
def Mper : List (List ℚ) := [[0, 1], [1, 0]]

/-- The example matrix of the ergodic notebook. -/
def Mergodic : List (List ℚ) :=
  [[0.3, 0.2, 0.5], [0.4, 0.1, 0.5], [0.3, 0.6, 0.1]]

/-- A draw stream that always returns 0 (every step picks the first
positive-weight state). -/
def rngZero : Nat → ℚ := fun _ => 0

/-- A draw stream that always returns one half. -/
def rngHalf : Nat → ℚ := fun _ => 1 / 2

/-- A draw stream whose first draw is 0 and every later draw is 7/10: on
Mabs from state 2 the first trial is absorbed at state 1 and the second at
state 4. -/
def rngC1 : Nat → ℚ := fun k => if k = 0 then 0 else 7 / 10

/-- A draw stream agreeing with rngHalf on its first hundred draws only. -/
def rngHalfAlt : Nat → ℚ := fun k => if k < 100 then 1 / 2 else 0

/-- The closed-form fundamental-matrix data of cell 2 of the absorbing
notebook: the transient submatrix Mtrans = Mabs[1:3, 1:3], as a pair of
pairs. -/
def MtransP : (ℚ × ℚ) × (ℚ × ℚ) :=
  (((Mabs.getD 1 []).getD 1 0, (Mabs.getD 1 []).getD 2 0),
   ((Mabs.getD 2 []).getD 1 0, (Mabs.getD 2 []).getD 2 0))

/-- The column m4 = Mabs[1:3, 3] of transition probabilities into state 4. -/
def m4P : ℚ × ℚ := ((Mabs.getD 1 []).getD 3 0, (Mabs.getD 2 []).getD 3 0)

/-- The column m1 = Mabs[1:3, 0] of transition probabilities into state 1. -/
def m1P : ℚ × ℚ := ((Mabs.getD 1 []).getD 0 0, (Mabs.getD 2 []).getD 0 0)

/-- The 2 by 2 identity matrix np.identity(2). -/
def id2 : (ℚ × ℚ) × (ℚ × ℚ) := ((1, 0), (0, 1))

/-- Entrywise difference of 2 by 2 matrices. -/
def sub2 (A B : (ℚ × ℚ) × (ℚ × ℚ)) : (ℚ × ℚ) × (ℚ × ℚ) :=
  ((A.1.1 - B.1.1, A.1.2 - B.1.2), (A.2.1 - B.2.1, A.2.2 - B.2.2))

/-- Determinant of a 2 by 2 matrix. -/
def det2 (A : (ℚ × ℚ) × (ℚ × ℚ)) : ℚ := A.1.1 * A.2.2 - A.1.2 * A.2.1

/-- The 2 by 2 matrix inverse, modelling the call to numpy.linalg.inv of
cell 2 (an external linear-algebra collaborator in the spec). -/
def inv2 (A : (ℚ × ℚ) × (ℚ × ℚ)) : (ℚ × ℚ) × (ℚ × ℚ) :=
  ((A.2.2 / det2 A, -A.1.2 / det2 A), (-A.2.1 / det2 A, A.1.1 / det2 A))

/-- Product of a 2 by 2 matrix with a 2-vector. -/
def mat2vec (A : (ℚ × ℚ) × (ℚ × ℚ)) (v : ℚ × ℚ) : ℚ × ℚ :=
  (A.1.1 * v.1 + A.1.2 * v.2, A.2.1 * v.1 + A.2.2 * v.2)

/-- f4 = np.dot(inv(np.identity(2) - Mtrans), m4): the closed-form
absorption probabilities into state 4 from start states 2 and 3. -/
def f4P : ℚ × ℚ := mat2vec (inv2 (sub2 id2 MtransP)) m4P

/-- f1 = np.dot(inv(np.identity(2) - Mtrans), m1): the closed-form
absorption probabilities into state 1 from start states 2 and 3. -/
def f1P : ℚ × ℚ := mat2vec (inv2 (sub2 id2 MtransP)) m1P

/-- The simulated absorption probabilities recorded in cell 8 of the
absorbing notebook for the run seeded with np.random.seed(77) and
numexp = 10000: rows (f21, f24) and (f31, f34). -/
def simfprobsRec : (ℚ × ℚ) × (ℚ × ℚ) := ((0.3514, 0.6486), (0.5954, 0.4046))

/-- The stationary distribution of Mergodic.  The notebook obtains it from
numpy.linalg.eig (an external collaborator); stationarity and
normalisation of this vector are proved below. -/
def piExact : List ℚ := [51 / 154, 48 / 154, 55 / 154]

/-- The state tallies over the burn-in slice statemat[:, 9000:] recorded
in cell 20 of the ergodic notebook for the run seeded with
np.random.seed(100) (numexp = 100, numiter = 10000): the printed
normalised output is counts / 100000 = [0.33125, 0.31147, 0.35728]. -/
def ergodicCountsRec : List ℚ := [33125, 31147, 35728]

/-- Cell 20 normalisation: counts / np.product(statemat[:, 9000:].shape),
the burn-in slice holding 100 * 1000 recorded states. -/
def cell20norm : List ℚ := ergodicCountsRec.map (fun c => c / (100 * 1000))

/-- Cell 21 normalisation used in the final comparison print:
counts / np.product(statemat.shape), where statemat has 100 * 10000
entries even though the counts were tallied over the burn-in slice only. -/
def cell21norm : List ℚ := ergodicCountsRec.map (fun c => c / (100 * 10000))

/-! ## Basic lemmas about the dot product and one-hot vectors -/

theorem dotL_nil_right (xs : List ℚ) : dotL xs [] = 0 := by
  cases xs <;> simp [dotL]

theorem dotL_cons (x y : ℚ) (xs ys : List ℚ) :
    dotL (x :: xs) (y :: ys) = x * y + dotL xs ys := by
  simp [dotL]

theorem dotL_replicate_zero (xs : List ℚ) (n : Nat) :
    dotL xs (List.replicate n 0) = 0 := by
  induction xs generalizing n with
  | nil => simp [dotL]
  | cons x xs ih =>
    cases n with
    | zero => simp [dotL]
    | succ m => rw [List.replicate_succ, dotL_cons, ih, mul_zero, add_zero]

theorem dotL_onehot (xs : List ℚ) (n i : Nat) (hlen : xs.length = n)
    (hi : i < n) : dotL xs (onehot n i) = xs.getD i 0 := by
  induction xs generalizing n i with
  | nil => simp at hlen; omega
  | cons x xs ih =>
    cases n with
    | zero => omega
    | succ m =>
      have hxs : xs.length = m := by simpa using hlen
      cases i with
      | zero =>
        simp only [onehot, List.replicate_succ, List.set]
        rw [dotL_cons, dotL_replicate_zero, mul_one, add_zero]
        rfl
      | succ j =>
        have hj : j < m := by omega
        simp only [onehot, List.replicate_succ, List.set]
        rw [dotL_cons, mul_zero, zero_add]
        exact ih m j hxs hj

theorem range_map_getD (xs : List ℚ) :
    (List.range xs.length).map (fun j => xs.getD j 0) = xs := by
  apply List.ext_getElem
  · simp
  · intro i h1 h2
    simp only [List.getElem_map, List.getElem_range]
    exact List.getD_eq_getElem xs 0 h2

theorem col_getD (M : List (List ℚ)) (j i : Nat) (hi : i < M.length) :
    (col M j).getD i 0 = (M.getD i []).getD j 0 := by
  unfold col
  rw [List.getD_eq_getElem _ _ (by simpa using hi), List.getElem_map,
    List.getD_eq_getElem _ _ hi]

/-- The distribution the notebooks build by np.dot(M.T, onehot) is exactly
row (currstate - 1) of the matrix, for a rectangular matrix and an
in-range 1-based current state. -/
theorem statetransprobs_eq_row (M : List (List ℚ)) (s : Nat)
    (hrect : ∀ rw ∈ M, rw.length = M.length)
    (h1 : 1 ≤ s) (h2 : s ≤ M.length) :
    statetransprobs M s = M.getD (s - 1) [] := by
  have hs : s - 1 < M.length := by omega
  have hmem : M.getD (s - 1) [] ∈ M := by
    rw [List.getD_eq_getElem _ _ hs]
    exact List.getElem_mem hs
  have hrow : (M.getD (s - 1) []).length = M.length := hrect _ hmem
  unfold statetransprobs matTvec
  have hcl : ∀ j, dotL (col M j) (onehot M.length (s - 1)) =
      (M.getD (s - 1) []).getD j 0 := by
    intro j
    rw [dotL_onehot (col M j) M.length (s - 1) (by simp [col]) hs]
    exact col_getD M j (s - 1) hs
  calc (List.range M.length).map (fun j => dotL (col M j) (onehot M.length (s - 1)))
      = (List.range M.length).map (fun j => (M.getD (s - 1) []).getD j 0) := by
        exact List.map_congr_left (fun j _ => hcl j)
    _ = (List.range (M.getD (s - 1) []).length).map
          (fun j => (M.getD (s - 1) []).getD j 0) := by rw [hrow]
    _ = M.getD (s - 1) [] := range_map_getD _

/-! ## Lemmas about the weighted selection -/

/-- The index selected by the inverse-CDF draw is in range and carries a
strictly positive weight, whenever the draw is non-negative and below the
total weight.  In particular a weight-0 index is never selected. -/
theorem choice_lt_pos (p : List ℚ) (r : ℚ) (h0 : 0 ≤ r) (hs : r < p.sum) :
    choice p r < p.length ∧ 0 < p.getD (choice p r) 0 := by
  induction p generalizing r with
  | nil => simp at hs; exact absurd (lt_of_le_of_lt h0 hs) (lt_irrefl 0)
  | cons q qs ih =>
    by_cases hq : r < q
    · constructor
      · simp [choice, hq]
      · simp [choice, hq]
        exact lt_of_le_of_lt h0 hq
    · have hqr : q ≤ r := le_of_not_lt hq
      have h0r : 0 ≤ r - q := by linarith
      have hsr : r - q < qs.sum := by
        simp [List.sum_cons] at hs
        linarith
      obtain ⟨hlt, hpos⟩ := ih (r - q) h0r hsr
      constructor
      · simp only [choice, if_neg hq, List.length_cons]
        omega
      · simpa [choice, if_neg hq] using hpos

/-! ## Lemmas about one checked step -/

theorem stepE_ok_iff (M : List (List ℚ)) (s : Nat) (r : ℚ) (j : Nat) :
    stepE M s r = .ok j ↔
      validDistB (statetransprobs M s) = true ∧
      j = choice (statetransprobs M s) r + 1 := by
  unfold stepE choiceE
  by_cases h : validDistB (statetransprobs M s) <;> simp [h, eq_comm]

theorem stepE_error_iff (M : List (List ℚ)) (s : Nat) (r : ℚ) :
    stepE M s r = .error SimError.invalidDistribution ↔
      validDistB (statetransprobs M s) = false := by
  unfold stepE choiceE
  by_cases h : validDistB (statetransprobs M s) <;> simp [h]

/-- A successful checked step from an in-range state of a rectangular
matrix whose rows sum to 1 lands in an in-range state, provided the draw
lies in the unit interval. -/
theorem stepE_range (M : List (List ℚ)) (s : Nat) (r : ℚ) (j : Nat)
    (hrect : ∀ rw ∈ M, rw.length = M.length)
    (hsum : ∀ rw ∈ M, rw.sum = 1)
    (hs1 : 1 ≤ s) (hs2 : s ≤ M.length)
    (hr0 : 0 ≤ r) (hr1 : r < 1)
    (hok : stepE M s r = .ok j) : 1 ≤ j ∧ j ≤ M.length := by
  obtain ⟨_, hj⟩ := (stepE_ok_iff M s r j).mp hok
  have hs : s - 1 < M.length := by omega
  have hmem : M.getD (s - 1) [] ∈ M := by
    rw [List.getD_eq_getElem _ _ hs]
    exact List.getElem_mem hs
  have hrow := statetransprobs_eq_row M s hrect hs1 hs2
  have hlen : (M.getD (s - 1) []).length = M.length := hrect _ hmem
  have hsum1 : (M.getD (s - 1) []).sum = 1 := hsum _ hmem
  have hlt : choice (statetransprobs M s) r < M.length := by
    rw [hrow]
    have := (choice_lt_pos (M.getD (s - 1) []) r hr0 (by rw [hsum1]; exact hr1)).1
    omega
  omega

/-! ## Lemmas about the absorbing-chain trial and experiment loops -/

/-- A trial that yields a final state yields a member of absorbic_states:
the while loop exits only when its condition fails. -/
theorem runTrial_final_mem (M : List (List ℚ)) (rng : Nat → ℚ) :
    ∀ fuel s k t k2, runTrial M rng s k fuel = .ok (some (t, k2)) →
      t ∈ absorbicStates := by
  intro fuel
  induction fuel with
  | zero =>
    intro s k t k2 h
    by_cases hmem : s ∈ absorbicStates
    · simp only [runTrial, if_pos hmem, Except.ok.injEq, Option.some.injEq,
        Prod.mk.injEq] at h
      rcases h with ⟨rfl, rfl⟩
      exact hmem
    · simp [runTrial, if_neg hmem] at h
  | succ fuel ih =>
    intro s k t k2 h
    by_cases hmem : s ∈ absorbicStates
    · simp only [runTrial, if_pos hmem, Except.ok.injEq, Option.some.injEq,
        Prod.mk.injEq] at h
      rcases h with ⟨rfl, rfl⟩
      exact hmem
    · simp only [runTrial, if_neg hmem] at h
      cases hstep : stepE M s (rng k) with
      | error e => rw [hstep] at h; cases h
      | ok u => rw [hstep] at h; exact ih u (k + 1) t k2 h

/-- A trial of a rectangular row-stochastic matrix started in range stays
in range: if it yields a final state, that state is one of 1, ..., N. -/
theorem runTrial_range (M : List (List ℚ)) (rng : Nat → ℚ)
    (hrect : ∀ rw ∈ M, rw.length = M.length)
    (hsum : ∀ rw ∈ M, rw.sum = 1)
    (hrng : ∀ j, 0 ≤ rng j ∧ rng j < 1) :
    ∀ fuel s k t k2, 1 ≤ s → s ≤ M.length →
      runTrial M rng s k fuel = .ok (some (t, k2)) →
      1 ≤ t ∧ t ≤ M.length := by
  intro fuel
  induction fuel with
  | zero =>
    intro s k t k2 hs1 hs2 h
    by_cases hmem : s ∈ absorbicStates
    · simp only [runTrial, if_pos hmem, Except.ok.injEq, Option.some.injEq,
        Prod.mk.injEq] at h
      rcases h with ⟨rfl, rfl⟩
      exact ⟨hs1, hs2⟩
    · simp [runTrial, if_neg hmem] at h
  | succ fuel ih =>
    intro s k t k2 hs1 hs2 h
    by_cases hmem : s ∈ absorbicStates
    · simp only [runTrial, if_pos hmem, Except.ok.injEq, Option.some.injEq,
        Prod.mk.injEq] at h
      rcases h with ⟨rfl, rfl⟩
      exact ⟨hs1, hs2⟩
    · simp only [runTrial, if_neg hmem] at h
      cases hstep : stepE M s (rng k) with
      | error e => rw [hstep] at h; cases h
      | ok u =>
        rw [hstep] at h
        obtain ⟨hu1, hu2⟩ := stepE_range M s (rng k) u hrect hsum hs1 hs2
          (hrng k).1 (hrng k).2 hstep
        exact ih u (k + 1) t k2 hu1 hu2 h

/-- A trial depends on the draw stream only through the draws it can
consume: streams agreeing on positions k, ..., k + fuel - 1 give
identical trials. -/
theorem runTrial_congr (M : List (List ℚ)) (rng1 rng2 : Nat → ℚ) :
    ∀ fuel s k, (∀ j, j < fuel → rng1 (k + j) = rng2 (k + j)) →
      runTrial M rng1 s k fuel = runTrial M rng2 s k fuel := by
  intro fuel
  induction fuel with
  | zero => intro s k _; rfl
  | succ fuel ih =>
    intro s k h
    by_cases hmem : s ∈ absorbicStates
    · simp [runTrial, if_pos hmem]
    · simp only [runTrial, if_neg hmem]
      have hk : rng1 k = rng2 k := by simpa using h 0 (by omega)
      rw [hk]
      cases stepE M s (rng2 k) with
      | error e => rfl
      | ok t =>
        exact ih t (k + 1) (fun j hj => by
          have hh := h (j + 1) (by omega)
          rwa [show k + (j + 1) = k + 1 + j by omega] at hh)

/-- A successful experiment returns one final state per trial, each of
them an absorbing state. -/
theorem runExperiment_ok (M : List (List ℚ)) (rng : Nat → ℚ) (start : Nat) :
    ∀ numexp k fuel fs k2,
      runExperiment M rng start k fuel numexp = .ok (some (fs, k2)) →
      fs.length = numexp ∧ ∀ f ∈ fs, f ∈ absorbicStates := by
  intro numexp
  induction numexp with
  | zero =>
    intro k fuel fs k2 h
    simp only [runExperiment, Except.ok.injEq, Option.some.injEq,
      Prod.mk.injEq] at h
    rcases h with ⟨rfl, rfl⟩
    simp
  | succ numexp ih =>
    intro k fuel fs k2 h
    simp only [runExperiment] at h
    split at h
    · cases h
    · cases h
    · rename_i f k1 h1
      split at h
      · cases h
      · cases h
      · rename_i fs1 k3 h2
        simp only [Except.ok.injEq, Option.some.injEq, Prod.mk.injEq] at h
        rcases h with ⟨rfl, rfl⟩
        obtain ⟨hlen, hmem⟩ := ih k1 fuel fs1 k3 h2
        refine ⟨by simp [hlen], ?_⟩
        intro f2 hf2
        rcases List.mem_cons.mp hf2 with rfl | hf2
        · exact runTrial_final_mem M rng fuel start k f2 k1 h1
        · exact hmem f2 hf2

/-! ## Lemmas about the ergodic trajectory loop -/

/-- A successful ergodic trajectory records exactly numiter states and
consumes exactly numiter draws. -/
theorem ergodicTrace_ok_shape (M : List (List ℚ)) (rng : Nat → ℚ) :
    ∀ n s k tr k2, ergodicTrace M rng s k n = .ok (tr, k2) →
      tr.length = n ∧ k2 = k + n := by
  intro n
  induction n with
  | zero =>
    intro s k tr k2 h
    simp only [ergodicTrace, Except.ok.injEq, Prod.mk.injEq] at h
    rcases h with ⟨rfl, rfl⟩
    simp
  | succ n ih =>
    intro s k tr k2 h
    simp only [ergodicTrace] at h
    split at h
    · cases h
    · rename_i t hstep
      split at h
      · cases h
      · rename_i tr1 k1 h2
        simp only [Except.ok.injEq, Prod.mk.injEq] at h
        rcases h with ⟨rfl, rfl⟩
        obtain ⟨hlen, hk⟩ := ih t (k + 1) tr1 k1 h2
        exact ⟨by simp [hlen], by omega⟩

/-- Every state an ergodic trajectory records is in range 1, ..., N for a
rectangular row-stochastic matrix and an in-range start. -/
theorem ergodicTrace_range (M : List (List ℚ)) (rng : Nat → ℚ)
    (hrect : ∀ rw ∈ M, rw.length = M.length)
    (hsum : ∀ rw ∈ M, rw.sum = 1)
    (hrng : ∀ j, 0 ≤ rng j ∧ rng j < 1) :
    ∀ n s k tr k2, 1 ≤ s → s ≤ M.length →
      ergodicTrace M rng s k n = .ok (tr, k2) →
      ∀ x ∈ tr, 1 ≤ x ∧ x ≤ M.length := by
  intro n
  induction n with
  | zero =>
    intro s k tr k2 _ _ h
    simp only [ergodicTrace, Except.ok.injEq, Prod.mk.injEq] at h
    rcases h with ⟨rfl, rfl⟩
    simp
  | succ n ih =>
    intro s k tr k2 hs1 hs2 h
    simp only [ergodicTrace] at h
    split at h
    · cases h
    · rename_i t hstep
      split at h
      · cases h
      · rename_i tr1 k1 h2
        simp only [Except.ok.injEq, Prod.mk.injEq] at h
        rcases h with ⟨rfl, rfl⟩
        obtain ⟨ht1, ht2⟩ := stepE_range M s (rng k) t hrect hsum hs1 hs2
          (hrng k).1 (hrng k).2 hstep
        intro x hx
        rcases List.mem_cons.mp hx with rfl | hx
        · exact ⟨ht1, ht2⟩
        · exact ih t (k + 1) tr1 k1 ht1 ht2 h2 x hx

/-- An ergodic trajectory depends on the draw stream only through the
numiter draws it consumes. -/
theorem ergodicTrace_congr (M : List (List ℚ)) (rng1 rng2 : Nat → ℚ) :
    ∀ n s k, (∀ j, j < n → rng1 (k + j) = rng2 (k + j)) →
      ergodicTrace M rng1 s k n = ergodicTrace M rng2 s k n := by
  intro n
  induction n with
  | zero => intro s k _; rfl
  | succ n ih =>
    intro s k h
    simp only [ergodicTrace]
    have hk : rng1 k = rng2 k := by simpa using h 0 (by omega)
    rw [hk]
    split
    · rfl
    · rename_i t _
      rw [ih t (k + 1) (fun j hj => by
        have hh := h (j + 1) (by omega)
        rwa [show k + (j + 1) = k + 1 + j by omega] at hh)]

/-! ## Lemmas about the np.unique tally -/

theorem le_foldr_max (fs : List Nat) (v : Nat) (hv : v ∈ fs) :
    v ≤ fs.foldr max 0 := by
  induction fs with
  | nil => cases hv
  | cons f fs ih =>
    rcases List.mem_cons.mp hv with rfl | hv
    · exact le_max_left _ _
    · exact le_trans (ih hv) (le_max_right _ _)

theorem foldr_max_le (fs : List Nat) (b : Nat) (hall : ∀ f ∈ fs, f ≤ b) :
    fs.foldr max 0 ≤ b := by
  induction fs with
  | nil => simp
  | cons f fs ih =>
    simp only [List.foldr_cons]
    exact max_le (hall f (List.mem_cons_self f fs))
      (ih (fun g hg => hall g (List.mem_cons_of_mem f hg)))

/-- When the final states realise both absorbing barriers (and nothing
else), np.unique returns exactly the sorted pair 1, 4. -/
theorem uniqueSorted_both (fs : List Nat)
    (hall : ∀ f ∈ fs, f = 1 ∨ f = 4) (h1 : 1 ∈ fs) (h4 : 4 ∈ fs) :
    uniqueSorted fs = [1, 4] := by
  have hmax : fs.foldr max 0 = 4 := by
    refine le_antisymm (foldr_max_le fs 4 ?_) (le_foldr_max fs 4 h4)
    intro f hf
    rcases hall f hf with rfl | rfl <;> omega
  have h0 : (0 : Nat) ∉ fs := by
    intro h
    rcases hall 0 h with h | h <;> omega
  have h2 : (2 : Nat) ∉ fs := by
    intro h
    rcases hall 2 h with h | h <;> omega
  have h3 : (3 : Nat) ∉ fs := by
    intro h
    rcases hall 3 h with h | h <;> omega
  unfold uniqueSorted
  rw [hmax]
  rw [show List.range (4 + 1) = [0, 1, 2, 3, 4] from rfl]
  simp [List.filter_cons, h0, h1, h2, h3, h4]

theorem tallyCount_partition (fs : List Nat)
    (hall : ∀ f ∈ fs, f = 1 ∨ f = 4) :
    tallyCount fs 1 + tallyCount fs 4 = fs.length := by
  induction fs with
  | nil => rfl
  | cons f fs ih =>
    have hf := hall f (List.mem_cons_self f fs)
    have htail : ∀ g ∈ fs, g = 1 ∨ g = 4 :=
      fun g hg => hall g (List.mem_cons_of_mem f hg)
    have := ih htail
    rcases hf with rfl | rfl <;>
      simp only [tallyCount, List.filter_cons] at this ⊢ <;>
      norm_num <;> omega

/-- The simfprobs row written by cell 7 when both absorbing states occur
among the final states: the two slots get the two count shares, and those
shares sum to 1. -/
theorem tallyRow_both (fs : List Nat) (numexp : Nat)
    (hlen : fs.length = numexp) (hpos : 0 < numexp)
    (hall : ∀ f ∈ fs, f = 1 ∨ f = 4) (h1 : 1 ∈ fs) (h4 : 4 ∈ fs) :
    tallyRow fs numexp =
      some ((tallyCount fs 1 : ℚ) / numexp, (tallyCount fs 4 : ℚ) / numexp) ∧
    (tallyCount fs 1 : ℚ) / numexp + (tallyCount fs 4 : ℚ) / numexp = 1 := by
  constructor
  · rw [tallyRow, uniqueSorted_both fs hall h1 h4]
    rfl
  · rw [div_add_div_same]
    have hcast : (tallyCount fs 1 : ℚ) + (tallyCount fs 4 : ℚ) = (numexp : ℚ) := by
      rw [← Nat.cast_add, tallyCount_partition fs hall, hlen]
    rw [hcast]
    exact div_self (by positivity)

/-! ## The oscillating matrix never leaves its transient pair -/

/-- From state 2 of Mosc every in-range draw moves to state 3, and from
state 3 every in-range draw moves to state 2. -/
theorem stepE_Mosc (r : ℚ) (h0 : 0 ≤ r) (h1 : r < 1) :
    stepE Mosc 2 r = .ok 3 ∧ stepE Mosc 3 r = .ok 2 := by
  have hrow2 : statetransprobs Mosc 2 = [0, 0, 1, 0] := by
    rw [statetransprobs_eq_row Mosc 2 (by simp [Mosc]) (by omega) (by simp [Mosc])]
    rfl
  have hrow3 : statetransprobs Mosc 3 = [0, 1, 0, 0] := by
    rw [statetransprobs_eq_row Mosc 3 (by simp [Mosc]) (by omega) (by simp [Mosc])]
    rfl
  have hval2 : validDistB [0, 0, 1, 0] = true := by
    norm_num [validDistB, atol, abs_le]
  have hval3 : validDistB [0, 1, 0, 0] = true := by
    norm_num [validDistB, atol, abs_le]
  have hnot : ¬ r < 0 := not_lt.mpr h0
  constructor
  · rw [stepE, hrow2, choiceE, if_pos hval2]
    simp [choice, hnot, h1, sub_zero]
  · rw [stepE, hrow3, choiceE, if_pos hval3]
    simp [choice, hnot, h1, sub_zero]

/-- On Mosc a trial started in state 2 (or 3) is still inside its while
loop after any number of iterations: it never reaches an absorbing state
and never raises an error. -/
theorem runTrial_Mosc_none (rng : Nat → ℚ)
    (hrng : ∀ j, 0 ≤ rng j ∧ rng j < 1) :
    ∀ fuel k, runTrial Mosc rng 2 k fuel = .ok none ∧
      runTrial Mosc rng 3 k fuel = .ok none := by
  intro fuel
  induction fuel with
  | zero =>
    intro k
    constructor <;> simp [runTrial, absorbicStates]
  | succ fuel ih =>
    intro k
    obtain ⟨hs2, hs3⟩ := stepE_Mosc (rng k) (hrng k).1 (hrng k).2
    constructor
    · rw [runTrial, if_neg (by simp [absorbicStates]), hs2]
      exact (ih (k + 1)).2
    · rw [runTrial, if_neg (by simp [absorbicStates]), hs3]
      exact (ih (k + 1)).1

/-! ## Unfolding helpers for concrete runs -/

theorem stepE_eq_ok (M : List (List ℚ)) (s : Nat) (r : ℚ) (i : Nat)
    (hval : validDistB (statetransprobs M s) = true)
    (hch : choice (statetransprobs M s) r = i) :
    stepE M s r = .ok (i + 1) :=
  (stepE_ok_iff M s r (i + 1)).mpr ⟨hval, by rw [hch]⟩

theorem stepE_eq_err (M : List (List ℚ)) (s : Nat) (r : ℚ)
    (hval : validDistB (statetransprobs M s) = false) :
    stepE M s r = .error SimError.invalidDistribution :=
  (stepE_error_iff M s r).mpr hval

theorem runTrial_done (M : List (List ℚ)) (rng : Nat → ℚ) (s k fuel : Nat)
    (hmem : s ∈ absorbicStates) :
    runTrial M rng s k fuel = .ok (some (s, k)) := by
  cases fuel <;> simp [runTrial, hmem]

theorem runTrial_step (M : List (List ℚ)) (rng : Nat → ℚ) (s k fuel t : Nat)
    (hmem : s ∉ absorbicStates) (hstep : stepE M s (rng k) = .ok t) :
    runTrial M rng s k (fuel + 1) = runTrial M rng t (k + 1) fuel := by
  simp [runTrial, hmem, hstep]

theorem runTrial_err (M : List (List ℚ)) (rng : Nat → ℚ) (s k fuel : Nat)
    (e : SimError) (hmem : s ∉ absorbicStates)
    (hstep : stepE M s (rng k) = .error e) :
    runTrial M rng s k (fuel + 1) = .error e := by
  simp [runTrial, hmem, hstep]

theorem runExperiment_zero (M : List (List ℚ)) (rng : Nat → ℚ)
    (start k fuel : Nat) :
    runExperiment M rng start k fuel 0 = .ok (some ([], k)) := by
  simp [runExperiment]

theorem runExperiment_succ (M : List (List ℚ)) (rng : Nat → ℚ)
    (start k fuel n f k1 : Nat) (fs : List Nat) (k2 : Nat)
    (h1 : runTrial M rng start k fuel = .ok (some (f, k1)))
    (h2 : runExperiment M rng start k1 fuel n = .ok (some (fs, k2))) :
    runExperiment M rng start k fuel (n + 1) = .ok (some (f :: fs, k2)) := by
  simp [runExperiment, h1, h2]

theorem ergodicTrace_zero (M : List (List ℚ)) (rng : Nat → ℚ) (s k : Nat) :
    ergodicTrace M rng s k 0 = .ok ([], k) := by
  simp [ergodicTrace]

theorem ergodicTrace_succ (M : List (List ℚ)) (rng : Nat → ℚ)
    (s k n t : Nat) (tr : List Nat) (k1 : Nat)
    (hstep : stepE M s (rng k) = .ok t)
    (htr : ergodicTrace M rng t (k + 1) n = .ok (tr, k1)) :
    ergodicTrace M rng s k (n + 1) = .ok (t :: tr, k1) := by
  simp [ergodicTrace, hstep, htr]

/-! ## Concrete rows and steps of the example matrices -/

theorem row_Mabs_2 : statetransprobs Mabs 2 = [0.1, 0.2, 0.3, 0.4] := by
  rw [statetransprobs_eq_row Mabs 2 (by simp [Mabs]) (by omega)
    (by norm_num [Mabs])]
  rfl

theorem row_Munreach_2 : statetransprobs Munreach 2 = [0.5, 0.25, 0.25, 0] := by
  rw [statetransprobs_eq_row Munreach 2 (by simp [Munreach]) (by omega)
    (by norm_num [Munreach])]
  rfl

theorem row_Mbad_2 : statetransprobs Mbad 2 = [0, 0, 1, 0] := by
  rw [statetransprobs_eq_row Mbad 2 (by simp [Mbad]) (by omega)
    (by norm_num [Mbad])]
  rfl

theorem row_Mbad_3 : statetransprobs Mbad 3 = [0.5, 0.2, 0.2, 0.3] := by
  rw [statetransprobs_eq_row Mbad 3 (by simp [Mbad]) (by omega)
    (by norm_num [Mbad])]
  rfl

theorem row_Mper_1 : statetransprobs Mper 1 = [0, 1] := by
  rw [statetransprobs_eq_row Mper 1 (by simp [Mper]) (by omega)
    (by norm_num [Mper])]
  rfl

theorem row_Mper_2 : statetransprobs Mper 2 = [1, 0] := by
  rw [statetransprobs_eq_row Mper 2 (by simp [Mper]) (by omega)
    (by norm_num [Mper])]
  rfl

theorem stepE_Mabs_2_zero : stepE Mabs 2 0 = .ok 1 := by
  have := stepE_eq_ok Mabs 2 0 0
    (by rw [row_Mabs_2]; norm_num [validDistB, atol, abs_le])
    (by rw [row_Mabs_2]; norm_num [choice])
  simpa using this

theorem stepE_Mabs_2_seven : stepE Mabs 2 (7 / 10) = .ok 4 := by
  have := stepE_eq_ok Mabs 2 (7 / 10) 3
    (by rw [row_Mabs_2]; norm_num [validDistB, atol, abs_le])
    (by rw [row_Mabs_2]; norm_num [choice])
  simpa using this

theorem stepE_Munreach_2_zero : stepE Munreach 2 0 = .ok 1 := by
  have := stepE_eq_ok Munreach 2 0 0
    (by rw [row_Munreach_2]; norm_num [validDistB, atol, abs_le])
    (by rw [row_Munreach_2]; norm_num [choice])
  simpa using this

theorem stepE_Mbad_2_half : stepE Mbad 2 (1 / 2) = .ok 3 := by
  have := stepE_eq_ok Mbad 2 (1 / 2) 2
    (by rw [row_Mbad_2]; norm_num [validDistB, atol, abs_le])
    (by rw [row_Mbad_2]; norm_num [choice])
  simpa using this

theorem stepE_Mbad_3_half : stepE Mbad 3 (1 / 2) = .error .invalidDistribution :=
  stepE_eq_err Mbad 3 (1 / 2)
    (by rw [row_Mbad_3]; norm_num [validDistB, atol, abs_le])

theorem stepE_Mper_1_half : stepE Mper 1 (1 / 2) = .ok 2 := by
  have := stepE_eq_ok Mper 1 (1 / 2) 1
    (by rw [row_Mper_1]; norm_num [validDistB, atol, abs_le])
    (by rw [row_Mper_1]; norm_num [choice])
  simpa using this

theorem stepE_Mper_2_half : stepE Mper 2 (1 / 2) = .ok 1 := by
  have := stepE_eq_ok Mper 2 (1 / 2) 0
    (by rw [row_Mper_2]; norm_num [validDistB, atol, abs_le])
    (by rw [row_Mper_2]; norm_num [choice])
  simpa using this

/-! ## Concrete runs of the drivers -/

theorem runTrial_Mabs_zero : runTrial Mabs rngZero 2 0 10 = .ok (some (1, 1)) := by
  have h1 : runTrial Mabs rngZero 2 0 10 = runTrial Mabs rngZero 1 1 9 :=
    runTrial_step Mabs rngZero 2 0 9 1 (by decide) stepE_Mabs_2_zero
  rw [h1, runTrial_done Mabs rngZero 1 1 9 (by decide)]

theorem runExp_Mabs_one :
    runExperiment Mabs rngZero 2 0 10 1 = .ok (some ([1], 1)) :=
  runExperiment_succ Mabs rngZero 2 0 10 0 1 1 [] 1 runTrial_Mabs_zero
    (runExperiment_zero Mabs rngZero 2 1 10)

theorem runTrial_Mabs_C1_first :
    runTrial Mabs rngC1 2 0 10 = .ok (some (1, 1)) := by
  have h1 : runTrial Mabs rngC1 2 0 10 = runTrial Mabs rngC1 1 1 9 :=
    runTrial_step Mabs rngC1 2 0 9 1 (by decide) stepE_Mabs_2_zero
  rw [h1, runTrial_done Mabs rngC1 1 1 9 (by decide)]

theorem runTrial_Mabs_C1_second :
    runTrial Mabs rngC1 2 1 10 = .ok (some (4, 2)) := by
  have h1 : runTrial Mabs rngC1 2 1 10 = runTrial Mabs rngC1 4 2 9 :=
    runTrial_step Mabs rngC1 2 1 9 4 (by decide) stepE_Mabs_2_seven
  rw [h1, runTrial_done Mabs rngC1 4 2 9 (by decide)]

theorem runExp_Mabs_C1 :
    runExperiment Mabs rngC1 2 0 10 2 = .ok (some ([1, 4], 2)) :=
  runExperiment_succ Mabs rngC1 2 0 10 1 1 1 [4] 2 runTrial_Mabs_C1_first
    (runExperiment_succ Mabs rngC1 2 1 10 0 4 2 [] 2 runTrial_Mabs_C1_second
      (runExperiment_zero Mabs rngC1 2 2 10))

theorem runTrial_Munreach_zero (k : Nat) :
    runTrial Munreach rngZero 2 k 10 = .ok (some (1, k + 1)) := by
  have h1 : runTrial Munreach rngZero 2 k 10 = runTrial Munreach rngZero 1 (k + 1) 9 :=
    runTrial_step Munreach rngZero 2 k 9 1 (by decide) stepE_Munreach_2_zero
  rw [h1, runTrial_done Munreach rngZero 1 (k + 1) 9 (by decide)]

theorem runExp_Munreach :
    runExperiment Munreach rngZero 2 0 10 3 = .ok (some ([1, 1, 1], 3)) :=
  runExperiment_succ Munreach rngZero 2 0 10 2 1 1 [1, 1] 3
    (runTrial_Munreach_zero 0)
    (runExperiment_succ Munreach rngZero 2 1 10 1 1 2 [1] 3
      (runTrial_Munreach_zero 1)
      (runExperiment_succ Munreach rngZero 2 2 10 0 1 3 [] 3
        (runTrial_Munreach_zero 2)
        (runExperiment_zero Munreach rngZero 2 3 10)))

theorem runTrial_Mbad_err :
    runTrial Mbad rngHalf 2 0 10 = .error SimError.invalidDistribution := by
  have h1 : runTrial Mbad rngHalf 2 0 10 = runTrial Mbad rngHalf 3 1 9 :=
    runTrial_step Mbad rngHalf 2 0 9 3 (by decide) stepE_Mbad_2_half
  rw [h1]
  exact runTrial_err Mbad rngHalf 3 1 8 SimError.invalidDistribution
    (by decide) stepE_Mbad_3_half

theorem ergodicTrace_Mper :
    ergodicTrace Mper rngHalf 1 0 6 = .ok ([2, 1, 2, 1, 2, 1], 6) := by
  have a6 : ergodicTrace Mper rngHalf 1 6 0 = .ok ([], 6) :=
    ergodicTrace_zero Mper rngHalf 1 6
  have a5 : ergodicTrace Mper rngHalf 2 5 1 = .ok ([1], 6) :=
    ergodicTrace_succ Mper rngHalf 2 5 0 1 [] 6 stepE_Mper_2_half a6
  have a4 : ergodicTrace Mper rngHalf 1 4 2 = .ok ([2, 1], 6) :=
    ergodicTrace_succ Mper rngHalf 1 4 1 2 [1] 6 stepE_Mper_1_half a5
  have a3 : ergodicTrace Mper rngHalf 2 3 3 = .ok ([1, 2, 1], 6) :=
    ergodicTrace_succ Mper rngHalf 2 3 2 1 [2, 1] 6 stepE_Mper_2_half a4
  have a2 : ergodicTrace Mper rngHalf 1 2 4 = .ok ([2, 1, 2, 1], 6) :=
    ergodicTrace_succ Mper rngHalf 1 2 3 2 [1, 2, 1] 6 stepE_Mper_1_half a3
  have a1 : ergodicTrace Mper rngHalf 2 1 5 = .ok ([1, 2, 1, 2, 1], 6) :=
    ergodicTrace_succ Mper rngHalf 2 1 4 1 [2, 1, 2, 1] 6 stepE_Mper_2_half a2
  exact ergodicTrace_succ Mper rngHalf 1 0 5 2 [1, 2, 1, 2, 1] 6
    stepE_Mper_1_half a1

/-! ## Concrete tallies -/

theorem tallyRow_single : tallyRow [1] 1 = some (1, 1) := by
  norm_num [tallyRow, show uniqueSorted [1] = [1] from rfl,
    show tallyCount [1] 1 = 1 from rfl]

theorem tallyRow_three_ones : tallyRow [1, 1, 1] 3 = some (1, 1) := by
  norm_num [tallyRow, show uniqueSorted [1, 1, 1] = [1] from rfl,
    show tallyCount [1, 1, 1] 1 = 3 from rfl]

/-! ## Exact arithmetic for the closed-form results -/

/-- piExact really is the stationary distribution of Mergodic: applying
the transposed matrix (the same np.dot(M.T, pi) computation the notebook
uses) returns it unchanged. -/
theorem matTvec_Mergodic_pi : matTvec Mergodic piExact = piExact := by
  simp only [matTvec]
  rw [show List.range Mergodic.length = [0, 1, 2] from rfl]
  simp only [List.map_cons, List.map_nil]
  rw [show col Mergodic 0 = [0.3, 0.4, 0.3] from rfl,
    show col Mergodic 1 = [0.2, 0.1, 0.6] from rfl,
    show col Mergodic 2 = [0.5, 0.5, 0.1] from rfl]
  simp only [piExact, dotL_cons, dotL_nil_right]
  norm_num

theorem piExact_sum : piExact.sum = 1 := by
  norm_num [piExact]

theorem f1P_val : f1P = (24 / 69, 41 / 69) := by
  rw [f1P, show MtransP = ((0.2, 0.3), (0.1, 0.1)) from rfl,
    show m1P = (0.1, 0.5) from rfl]
  norm_num [mat2vec, inv2, det2, sub2, id2, Prod.ext_iff]

theorem f4P_val : f4P = (45 / 69, 28 / 69) := by
  rw [f4P, show MtransP = ((0.2, 0.3), (0.1, 0.1)) from rfl,
    show m4P = (0.4, 0.3) from rfl]
  norm_num [mat2vec, inv2, det2, sub2, id2, Prod.ext_iff]

/-! ## Claims -/

/-- C1 (corrected): the reported absorption probabilities sum to exactly 1
provided both absorbing states occur among the trials' final states; the
tally then maps state 1 to its count share and state 4 to its count
share. -/
theorem claim1_amended_thm (M : List (List ℚ)) (rng : Nat → ℚ)
    (start k fuel numexp : Nat) (fs : List Nat) (k2 : Nat)
    (hrun : runExperiment M rng start k fuel numexp = .ok (some (fs, k2)))
    (hpos : 0 < numexp) (h1 : 1 ∈ fs) (h4 : 4 ∈ fs) :
    tallyRow fs numexp =
      some ((tallyCount fs 1 : ℚ) / numexp, (tallyCount fs 4 : ℚ) / numexp) ∧
    (tallyCount fs 1 : ℚ) / numexp + (tallyCount fs 4 : ℚ) / numexp = 1 := by
  obtain ⟨hlen, hmem⟩ := runExperiment_ok M rng start numexp k fuel fs k2 hrun
  have hall : ∀ f ∈ fs, f = 1 ∨ f = 4 := by
    intro f hf
    simpa [absorbicStates] using hmem f hf
  exact tallyRow_both fs numexp hlen hpos hall h1 h4

/-- C1 counterexample: a 1-trial experiment on the valid example matrix
from transient start 2 whose single trial is absorbed at state 1.
np.unique then returns a length-1 counts array which numpy broadcasts into
both slots of the simfprobs row, so the row reads (1, 1) and its two
entries sum to 2, not 1. -/
theorem claim1_counterexample :
    runExperiment Mabs rngZero 2 0 10 1 = .ok (some ([1], 1)) ∧
    tallyRow [1] 1 = some (1, 1) ∧ (1 : ℚ) + 1 ≠ 1 :=
  ⟨runExp_Mabs_one, tallyRow_single, by norm_num⟩

/-- C1 witness: a 2-trial experiment realising both absorbing states, on
which the amended claim gives a row summing to 1. -/
theorem claim1_witness :
    runExperiment Mabs rngC1 2 0 10 2 = .ok (some ([1, 4], 2)) ∧
    0 < 2 ∧ (1 ∈ ([1, 4] : List Nat)) ∧ (4 ∈ ([1, 4] : List Nat)) ∧
    (tallyRow [1, 4] 2 =
       some ((tallyCount [1, 4] 1 : ℚ) / ((2 : Nat) : ℚ),
             (tallyCount [1, 4] 4 : ℚ) / ((2 : Nat) : ℚ)) ∧
     (tallyCount [1, 4] 1 : ℚ) / ((2 : Nat) : ℚ) +
       (tallyCount [1, 4] 4 : ℚ) / ((2 : Nat) : ℚ) = 1) :=
  ⟨runExp_Mabs_C1, by decide, by decide, by decide,
    claim1_amended_thm Mabs rngC1 2 0 10 2 [1, 4] 2 runExp_Mabs_C1
      (by decide) (by decide) (by decide)⟩

/-- C2 (corrected): the code imposes no step budget and has no
NonTerminatingChain error: a trial yields a state only by entering an
absorbing state, and on the oscillating matrix Mosc a trial from state 2
is still inside its while loop after any number of iterations, for every
draw stream with values in the unit interval. -/
theorem claim2_amended_thm :
    (∀ (M : List (List ℚ)) (rng : Nat → ℚ) (s k fuel t k2 : Nat),
      runTrial M rng s k fuel = .ok (some (t, k2)) → t ∈ absorbicStates) ∧
    (∀ rng : Nat → ℚ, (∀ j, 0 ≤ rng j ∧ rng j < 1) →
      ∀ fuel k, runTrial Mosc rng 2 k fuel = .ok none) :=
  ⟨fun M rng s k fuel t k2 h => runTrial_final_mem M rng fuel s k t k2 h,
   fun rng hrng fuel k => (runTrial_Mosc_none rng hrng fuel k).1⟩

/-- C2 counterexample: on Mosc from start 2 the trial has neither
terminated nor raised any error after 10001 loop iterations, i.e. after
exceeding the claimed default budget of 10,000 steps the code does not
fail with NonTerminatingChain; it is simply still looping. -/
theorem claim2_counterexample :
    runTrial Mosc rngHalf 2 0 10001 = .ok none :=
  (runTrial_Mosc_none rngHalf
    (fun _ => ⟨by norm_num [rngHalf], by norm_num [rngHalf]⟩) 10001 0).1

/-- C2 witness: the amended claim applied at the constant one-half stream,
plus an application of its first conjunct at a finished trial. -/
theorem claim2_witness :
    ((0 : ℚ) ≤ rngHalf 0 ∧ rngHalf 0 < 1) ∧
    runTrial Mosc rngHalf 2 5 7 = .ok none ∧
    (1 ∈ absorbicStates) :=
  ⟨⟨by norm_num [rngHalf], by norm_num [rngHalf]⟩,
   claim2_amended_thm.2 rngHalf
     (fun _ => ⟨by norm_num [rngHalf], by norm_num [rngHalf]⟩) 7 5,
   claim2_amended_thm.1 Mosc rngHalf 1 0 3 1 0
     (runTrial_done Mosc rngHalf 1 0 3 (by decide))⟩

/-- C3 (code_bug): with absorbing state 4 unreachable from transient start
2, every trial is absorbed at state 1; np.unique then omits state 4 and
numpy broadcasts the single count share (equal to 1) into both slots of
the simfprobs row, so the code assigns empirical probability 1 — not 0 —
to the unreachable absorbing state. -/
theorem claim3_bug_eval :
    runExperiment Munreach rngZero 2 0 10 3 = .ok (some ([1, 1, 1], 3)) ∧
    tallyRow [1, 1, 1] 3 = some (1, 1) ∧ (1 : ℚ) ≠ 0 :=
  ⟨runExp_Munreach, tallyRow_three_ones, by norm_num⟩

/-- C4 (corrected): there is no setup validation; the sampler error is
raised exactly when the step is drawn from a malformed row, which can and
does happen mid-trial. -/
theorem claim4_amended_thm (M : List (List ℚ)) (s : Nat) (r : ℚ) :
    stepE M s r = .error SimError.invalidDistribution ↔
      validDistB (statetransprobs M s) = false :=
  stepE_error_iff M s r

/-- C4 counterexample: Mbad has a malformed row 3 (sum 1.2), yet no error
is raised at setup: the trial from state 2 starts, executes its first step
successfully, and only the second step — mid-trial — raises the
distribution error. -/
theorem claim4_counterexample :
    stepE Mbad 2 (1 / 2) = .ok 3 ∧
    runTrial Mbad rngHalf 2 0 10 = .error SimError.invalidDistribution :=
  ⟨stepE_Mbad_2_half, runTrial_Mbad_err⟩

/-- C4 witness: the amended claim applied to the malformed row of Mbad. -/
theorem claim4_witness :
    validDistB (statetransprobs Mbad 3) = false ∧
    stepE Mbad 3 (1 / 2) = .error SimError.invalidDistribution := by
  have hv : validDistB (statetransprobs Mbad 3) = false := by
    rw [row_Mbad_3]
    norm_num [validDistB, atol, abs_le]
  exact ⟨hv, (claim4_amended_thm Mbad 3 (1 / 2)).mpr hv⟩

/-- C5 (confirmed): for a rectangular matrix and an in-range current
state, the distribution the code computes as M-transpose applied to the
one-hot state vector is exactly row (currentState - 1) of the matrix, and
a successful step returns only in-range states whose weight in that row is
strictly positive — a zero-probability state is never returned. -/
theorem claim5_thm (M : List (List ℚ)) (s : Nat) (r : ℚ)
    (hrect : ∀ rw ∈ M, rw.length = M.length)
    (hs1 : 1 ≤ s) (hs2 : s ≤ M.length)
    (hr0 : 0 ≤ r) (hr1 : r < (M.getD (s - 1) []).sum) :
    statetransprobs M s = M.getD (s - 1) [] ∧
    ∀ j, stepE M s r = .ok j →
      1 ≤ j ∧ j ≤ M.length ∧ 0 < (M.getD (s - 1) []).getD (j - 1) 0 := by
  have hrow := statetransprobs_eq_row M s hrect hs1 hs2
  refine ⟨hrow, ?_⟩
  intro j hok
  obtain ⟨hval, hj⟩ := (stepE_ok_iff M s r j).mp hok
  rw [hrow] at hj
  obtain ⟨hlt, hpos⟩ := choice_lt_pos (M.getD (s - 1) []) r hr0 hr1
  have hsl : s - 1 < M.length := by omega
  have hlen : (M.getD (s - 1) []).length = M.length := by
    refine hrect _ ?_
    rw [List.getD_eq_getElem _ _ hsl]
    exact List.getElem_mem hsl
  subst hj
  refine ⟨by omega, by omega, ?_⟩
  simpa using hpos

/-- C5 witness: the claim applied to the example matrix at current state 2
with draw one half. -/
theorem claim5_witness :
    (∀ rw ∈ Mabs, rw.length = Mabs.length) ∧
    (0 : ℚ) ≤ 1 / 2 ∧ (1 / 2 : ℚ) < (Mabs.getD 1 []).sum ∧
    (statetransprobs Mabs 2 = Mabs.getD 1 [] ∧
     ∀ j, stepE Mabs 2 (1 / 2) = .ok j →
       1 ≤ j ∧ j ≤ Mabs.length ∧ 0 < (Mabs.getD 1 []).getD (j - 1) 0) := by
  have hrect : ∀ rw ∈ Mabs, rw.length = Mabs.length := by simp [Mabs]
  have hsum : (1 / 2 : ℚ) < (Mabs.getD 1 []).sum := by
    rw [show Mabs.getD 1 [] = [0.1, 0.2, 0.3, 0.4] from rfl]
    norm_num
  exact ⟨hrect, by norm_num, hsum,
    claim5_thm Mabs 2 (1 / 2) hrect (by omega) (by norm_num [Mabs])
      (by norm_num) hsum⟩

/-- C6 (corrected): the ergodic driver has no convergence criterion and no
NoStationaryDistribution error: a successful trajectory always records
exactly numiter states (consuming exactly numiter draws) and returns them,
and the only error the code can raise at all is the sampler's
InvalidDistribution. -/
theorem claim6_amended_thm :
    (∀ (M : List (List ℚ)) (rng : Nat → ℚ) (s k n : Nat)
       (tr : List Nat) (k2 : Nat),
      ergodicTrace M rng s k n = .ok (tr, k2) → tr.length = n ∧ k2 = k + n) ∧
    (∀ e : SimError, e = SimError.invalidDistribution) :=
  ⟨fun M rng s k n tr k2 h => ergodicTrace_ok_shape M rng n s k tr k2 h,
   fun e => by cases e; rfl⟩

/-- C6 counterexample: on the periodic matrix Mper, whose occupation
oscillates and admits no single-trajectory convergence, the driver does
not fail with NoStationaryDistribution: it runs its fixed number of steps
and returns the recorded states normally. -/
theorem claim6_counterexample :
    ergodicTrace Mper rngHalf 1 0 6 = .ok ([2, 1, 2, 1, 2, 1], 6) :=
  ergodicTrace_Mper

/-- C6 witness: the amended claim applied to the concrete periodic run. -/
theorem claim6_witness :
    ergodicTrace Mper rngHalf 1 0 6 = .ok ([2, 1, 2, 1, 2, 1], 6) ∧
    ([2, 1, 2, 1, 2, 1] : List Nat).length = 6 ∧ 6 = 0 + 6 :=
  ⟨ergodicTrace_Mper,
   (claim6_amended_thm.1 Mper rngHalf 1 0 6 [2, 1, 2, 1, 2, 1] 6
     ergodicTrace_Mper).1,
   (claim6_amended_thm.1 Mper rngHalf 1 0 6 [2, 1, 2, 1, 2, 1] 6
     ergodicTrace_Mper).2⟩

/-- C7 (code_bug): for the ergodic example matrix the exact stationary
distribution is piExact (approximately 0.3312, 0.3117, 0.3571); the
recorded burn-in estimate of cell 20 matches it within 0.01 per component
and its components sum to 1; but the final comparison print of cell 21
divides the same burn-in counts by the full matrix size 10^6 instead of
the burn-in slice size 10^5, so the values it reports sum to 0.1, not 1. -/
theorem claim7_bug_eval :
    matTvec Mergodic piExact = piExact ∧ piExact.sum = 1 ∧
    (|piExact.getD 0 0 - 0.3312| ≤ 1 / 10 ^ 4 ∧
     |piExact.getD 1 0 - 0.3117| ≤ 1 / 10 ^ 4 ∧
     |piExact.getD 2 0 - 0.3571| ≤ 1 / 10 ^ 4) ∧
    (|cell20norm.getD 0 0 - piExact.getD 0 0| ≤ 1 / 100 ∧
     |cell20norm.getD 1 0 - piExact.getD 1 0| ≤ 1 / 100 ∧
     |cell20norm.getD 2 0 - piExact.getD 2 0| ≤ 1 / 100) ∧
    cell20norm.sum = 1 ∧
    cell21norm.sum = 1 / 10 ∧ (1 / 10 : ℚ) ≠ 1 := by
  refine ⟨matTvec_Mergodic_pi, piExact_sum, ?_, ?_, ?_, ?_, by norm_num⟩ <;>
    norm_num [piExact, cell20norm, cell21norm, ergodicCountsRec, abs_le,
      List.getD_cons_zero, List.getD_cons_succ]

/-- C8 (confirmed): the closed-form fundamental-matrix computation on the
absorbing example matrix gives exactly f21 = 24/69, f31 = 41/69,
f24 = 45/69, f34 = 28/69, matching the quoted decimals to within 10^(-4),
and the recorded 10,000-trial simulation of cell 8 matches the exact
values within 0.02 per entry. -/
theorem claim8_thm :
    f1P = (24 / 69, 41 / 69) ∧ f4P = (45 / 69, 28 / 69) ∧
    (|(24 : ℚ) / 69 - 0.3478| ≤ 1 / 10 ^ 4 ∧
     |(45 : ℚ) / 69 - 0.6522| ≤ 1 / 10 ^ 4 ∧
     |(41 : ℚ) / 69 - 0.5942| ≤ 1 / 10 ^ 4 ∧
     |(28 : ℚ) / 69 - 0.4058| ≤ 1 / 10 ^ 4) ∧
    (|simfprobsRec.1.1 - 24 / 69| ≤ 2 / 100 ∧
     |simfprobsRec.1.2 - 45 / 69| ≤ 2 / 100 ∧
     |simfprobsRec.2.1 - 41 / 69| ≤ 2 / 100 ∧
     |simfprobsRec.2.2 - 28 / 69| ≤ 2 / 100) := by
  refine ⟨f1P_val, f4P_val, ?_, ?_⟩ <;> norm_num [simfprobsRec, abs_le]

/-- C9 (confirmed): the trial and trajectory loops are deterministic
functions of the matrix, the start state and the draw stream: two streams
agreeing on the consumed positions (as two runs from the same seed do)
produce identical results, hence identical trajectories and tallies. -/
theorem claim9_thm :
    (∀ (M : List (List ℚ)) (rng1 rng2 : Nat → ℚ) (s k fuel : Nat),
      (∀ j, j < fuel → rng1 (k + j) = rng2 (k + j)) →
      runTrial M rng1 s k fuel = runTrial M rng2 s k fuel) ∧
    (∀ (M : List (List ℚ)) (rng1 rng2 : Nat → ℚ) (s k n : Nat),
      (∀ j, j < n → rng1 (k + j) = rng2 (k + j)) →
      ergodicTrace M rng1 s k n = ergodicTrace M rng2 s k n) :=
  ⟨fun M rng1 rng2 s k fuel h => runTrial_congr M rng1 rng2 fuel s k h,
   fun M rng1 rng2 s k n h => ergodicTrace_congr M rng1 rng2 n s k h⟩

/-- C9 witness: two syntactically different streams that agree on the
consumed draws give identical trial and trajectory results. -/
theorem claim9_witness :
    rngHalf 0 = rngHalfAlt 0 ∧
    runTrial Mabs rngHalf 2 0 5 = runTrial Mabs rngHalfAlt 2 0 5 ∧
    ergodicTrace Mper rngHalf 1 0 6 = ergodicTrace Mper rngHalfAlt 1 0 6 := by
  have hagree5 : ∀ j, j < 5 → rngHalf (0 + j) = rngHalfAlt (0 + j) := by
    intro j hj
    have h100 : j < 100 := by omega
    simp [rngHalf, rngHalfAlt, h100]
  have hagree6 : ∀ j, j < 6 → rngHalf (0 + j) = rngHalfAlt (0 + j) := by
    intro j hj
    have h100 : j < 100 := by omega
    simp [rngHalf, rngHalfAlt, h100]
  exact ⟨by norm_num [rngHalf, rngHalfAlt],
    claim9_thm.1 Mabs rngHalf rngHalfAlt 2 0 5 hagree5,
    claim9_thm.2 Mper rngHalf rngHalfAlt 1 0 6 hagree6⟩

/-- C10 (confirmed): for a rectangular row-stochastic matrix and a draw
stream in the unit interval, starting in range, every state either driver
holds is an integer in 1, ..., N: one checked step preserves the range,
the final state of a finished absorbing trial is in range, and every state
an ergodic trajectory records is in range. -/
theorem claim10_thm (M : List (List ℚ)) (rng : Nat → ℚ)
    (hrect : ∀ rw ∈ M, rw.length = M.length)
    (hsum : ∀ rw ∈ M, rw.sum = 1)
    (hrng : ∀ j, 0 ≤ rng j ∧ rng j < 1) :
    (∀ (s : Nat) (r : ℚ) (j : Nat), 1 ≤ s → s ≤ M.length → 0 ≤ r → r < 1 →
      stepE M s r = .ok j → 1 ≤ j ∧ j ≤ M.length) ∧
    (∀ s k fuel t k2, 1 ≤ s → s ≤ M.length →
      runTrial M rng s k fuel = .ok (some (t, k2)) →
      1 ≤ t ∧ t ≤ M.length) ∧
    (∀ s k n tr k2, 1 ≤ s → s ≤ M.length →
      ergodicTrace M rng s k n = .ok (tr, k2) →
      ∀ x ∈ tr, 1 ≤ x ∧ x ≤ M.length) :=
  ⟨fun s r j hs1 hs2 hr0 hr1 hok =>
     stepE_range M s r j hrect hsum hs1 hs2 hr0 hr1 hok,
   fun s k fuel t k2 hs1 hs2 h =>
     runTrial_range M rng hrect hsum hrng fuel s k t k2 hs1 hs2 h,
   fun s k n tr k2 hs1 hs2 h =>
     ergodicTrace_range M rng hrect hsum hrng n s k tr k2 hs1 hs2 h⟩

/-- C10 witness: the claim applied to the example matrix with the all-zero
draw stream, at the concrete finished trial from start 2. -/
theorem claim10_witness :
    (∀ rw ∈ Mabs, rw.length = Mabs.length) ∧
    (∀ rw ∈ Mabs, rw.sum = 1) ∧
    runTrial Mabs rngZero 2 0 10 = .ok (some (1, 1)) ∧
    (1 ≤ 1 ∧ 1 ≤ Mabs.length) := by
  have hrect : ∀ rw ∈ Mabs, rw.length = Mabs.length := by simp [Mabs]
  have hsum : ∀ rw ∈ Mabs, rw.sum = 1 := by
    intro rw h
    simp only [Mabs, List.mem_cons, List.not_mem_nil, or_false] at h
    rcases h with rfl | rfl | rfl | rfl <;> norm_num
  have hrng : ∀ j, 0 ≤ rngZero j ∧ rngZero j < 1 :=
    fun j => ⟨by norm_num [rngZero], by norm_num [rngZero]⟩
  exact ⟨hrect, hsum, runTrial_Mabs_zero,
    (claim10_thm Mabs rngZero hrect hsum hrng).2.1 2 0 10 1 1 (by omega)
      (by norm_num [Mabs]) runTrial_Mabs_zero⟩
